import Mathlib

/-! Verification of the aoc_lib benchmarking core: the memory-trace replay
of src/bench.rs (`get_data`), the event-log `Buffer` of src/alloc/buffer.rs,
the `TracingAlloc` state machine of src/alloc.rs, the benchmark run-count
policy of `bench_function`, the job/worker event protocol, and the
`split_pair` helper of src/parsers.rs.  Machine integers are modelled as
`Nat`/`Int` (sizes and timestamps never overflow in the modelled paths),
strings as `List Char`, and the trace file as the list of its parsed lines. -/

/-- One parsed line of a memory-trace file, as produced by the
`match (parts.next(), ...)` in `get_data` (src/bench.rs:49-64) and
written by `TracingAlloc::write_ev` (src/alloc.rs:106-117):
`A ts size` / `F ts size` / `S ts` / `E ts`.  `stop` models the `"E"`
(`Event::End`) line.  Unparseable lines are skipped by the source loop
(`_ => continue`) and are not represented. -/
inductive TraceLine
  | alloc (ts size : Nat)
  | free (ts size : Nat)
  | start (ts : Nat)
  | stop (ts : Nat)
deriving DecidableEq

/-- `MemoryData` of src/bench.rs:28-32.  Graph points are `(f64, f64)` in the
source; modelled exactly as `(Nat, Int)` (timestamp, byte count). -/
structure MemoryData where
  end_ts : Nat
  graph_points : List (Nat × Int)
  max_memory : Nat
deriving DecidableEq

/-- The loop state of `get_data` (src/bench.rs:41-45): the points vector, the
signed running counter `cur_bytes : isize`, `prev_bytes`, `end_ts`, and
`max_bytes`. -/
structure ReplayState where
  points : List (Nat × Int)
  cur_bytes : Int
  prev_bytes : Int
  end_ts : Nat
  max_bytes : Int
deriving DecidableEq

/-- One iteration of the `for line in trace_input.lines()` loop of `get_data`
(src/bench.rs:47-75): compute `(size, ts)` from the parsed line (negating on
`F`, recording `end_ts` on `E`), add `size` to `cur_bytes`, update
`max_bytes`, push `(ts, prev_bytes)` then `(ts, cur_bytes)`, set
`prev_bytes = cur_bytes`. -/
def replayStep (st : ReplayState) (line : TraceLine) : ReplayState :=
  let sizeTs : Int × Nat :=
    match line with
    | .alloc ts size => ((size : Int), ts)
    | .free ts size => (-(size : Int), ts)
    | .start ts => (0, ts)
    | .stop ts => (0, ts)
  let end_ts : Nat :=
    match line with
    | .stop ts => ts
    | _ => st.end_ts
  let cur := st.cur_bytes + sizeTs.1
  { points := st.points ++ [(sizeTs.2, st.prev_bytes), (sizeTs.2, cur)]
    cur_bytes := cur
    prev_bytes := cur
    end_ts := end_ts
    max_bytes := max st.max_bytes cur }

/-- `get_data` of src/bench.rs:40-81, over the parsed trace lines.  All
accumulators start at 0; `max_memory` is `max_bytes as usize`, which equals
`Int.toNat` because `max_bytes` starts at 0 and only grows. -/
def get_data (trace : List TraceLine) : MemoryData :=
  let st := trace.foldl replayStep ⟨[], 0, 0, 0, 0⟩
  { end_ts := st.end_ts
    graph_points := st.points
    max_memory := st.max_bytes.toNat }

/-- The signed byte delta of one trace line: `+size` for an allocation,
`-size` for a free, `0` for the markers. -/
def lineDelta : TraceLine → Int
  | .alloc _ size => (size : Int)
  | .free _ size => -(size : Int)
  | .start _ => 0
  | .stop _ => 0

/-- The timestamp field of a trace line. -/
def lineTs : TraceLine → Nat
  | .alloc ts _ => ts
  | .free ts _ => ts
  | .start ts => ts
  | .stop ts => ts

/-- Sum of the signed byte deltas of a trace: the value of the running
counter after replaying it. -/
def sumBytes (trace : List TraceLine) : Int :=
  trace.foldl (fun a l => a + lineDelta l) 0

/-- The timestamp of the last `E` line of a trace (0 when there is none),
stated independently of the replay fold. -/
def lastEndTs (trace : List TraceLine) : Nat :=
  (trace.reverse.findSome? fun l =>
    match l with
    | .stop ts => some ts
    | _ => none).getD 0

/-- Whether a trace line is an allocation. -/
def isAllocLine : TraceLine → Bool
  | .alloc _ _ => true
  | _ => false

/-- Whether a trace line is a free. -/
def isFreeLine : TraceLine → Bool
  | .free _ _ => true
  | _ => false

/-- The step-function points of a replay starting from byte count `cur`: for
each event, the pair `(time, previous bytes)` then `(time, current bytes)`.
Used to characterise the `graph_points` built by `get_data`. -/
def specPoints (cur : Int) : List TraceLine → List (Nat × Int)
  | [] => []
  | l :: rest =>
    (lineTs l, cur) :: (lineTs l, cur + lineDelta l) :: specPoints (cur + lineDelta l) rest

/-- Modelled from the spec: the `MemoryReport` of §3 — the variant of
`MemoryData` produced by the in-memory `reduce_memory` of the newer `bench`
module, whose source is not in src/ (its callers src/bench/simple.rs and
src/bench/detailed.rs read `num_allocs`/`max_memory` from it).  Adds the
`alloc_count` field to the replay result. -/
structure MemoryReport where
  end_timestamp : Nat
  graph_points : List (Nat × Int)
  max_memory : Nat
  alloc_count : Nat
deriving DecidableEq

/-- The loop state of the spec's memory replay: the `get_data` state plus the
allocation counter. -/
structure ReduceMemState where
  replay : ReplayState
  alloc_count : Nat
deriving DecidableEq

/-- Modelled from the spec: one step of `reduce_memory` (§4.3 Memory replay)
— identical to the `get_data` loop except that an `Alloc{size}` event also
increments `alloc_count`. -/
def reduceMemStep (st : ReduceMemState) (line : TraceLine) : ReduceMemState :=
  { replay := replayStep st.replay line
    alloc_count :=
      match line with
      | .alloc _ _ => st.alloc_count + 1
      | _ => st.alloc_count }

/-- Modelled from the spec: `reduce_memory(log) -> MemoryReport` (§4.3),
missing from src/ — replay the events in order maintaining the signed
counter, `max_memory`, the two graph points per event, `end_timestamp`, and
`alloc_count`. -/
def reduce_memory (trace : List TraceLine) : MemoryReport :=
  let st := trace.foldl reduceMemStep ⟨⟨[], 0, 0, 0, 0⟩, 0⟩
  { end_timestamp := st.replay.end_ts
    graph_points := st.replay.points
    max_memory := st.replay.max_bytes.toNat
    alloc_count := st.alloc_count }

/-- `Event` of src/alloc.rs:10-15: the record stored in the event log and
passed to `write_ev`.  `stop` models `Event::End`. -/
inductive Event
  | alloc (addr size : Nat)
  | free (addr size : Nat)
  | start
  | stop
deriving DecidableEq

/-- `INITIAL_SIZE` of src/alloc/buffer.rs:16. -/
def INITIAL_SIZE : Nat := 1024

/-- `Buffer` of src/alloc/buffer.rs:23-27.  `data` models the initialised
prefix of the raw allocation: the cells at indices below `length` that have
been written and are read back by `iter`; memory beyond the written region is
uninitialised in the source and never read, so it is not represented. -/
structure Buffer where
  capacity : Nat
  length : Nat
  data : List Event
deriving DecidableEq

/-- `Buffer::new` of src/alloc/buffer.rs:30-46: capacity `INITIAL_SIZE`,
length 0, no cell written yet. -/
def Buffer.new : Buffer :=
  { capacity := INITIAL_SIZE, length := 0, data := [] }

/-- `Buffer::clear` of src/alloc/buffer.rs:48-50: reset `length` to 0;
capacity and memory contents are untouched. -/
def Buffer.clear (b : Buffer) : Buffer :=
  { b with length := 0 }

/-- `Buffer::grow` of src/alloc/buffer.rs:64-90: reallocate to double the
capacity.  `realloc` preserves the stored contents; the `checked_mul`
overflow panic cannot occur over `Nat`. -/
def Buffer.grow (b : Buffer) : Buffer :=
  { b with capacity := b.capacity * 2 }

/-- `Buffer::push` of src/alloc/buffer.rs:52-62: grow when full, then write
the event at index `length` and increment `length`.  Writing at index
`length` replaces any stale cell left there by an earlier `clear`. -/
def Buffer.push (b : Buffer) (event : Event) : Buffer :=
  let b := if b.length = b.capacity then b.grow else b
  { b with data := b.data.take b.length ++ [event], length := b.length + 1 }

/-- `Buffer::iter` of src/alloc/buffer.rs:92-96: the slice of the first
`length` stored events, in insertion order. -/
def Buffer.iter (b : Buffer) : List Event :=
  b.data.take b.length

/-- Folding `Buffer::push` over a list of events: K successive appends. -/
def Buffer.pushAll (b : Buffer) (events : List Event) : Buffer :=
  events.foldl Buffer.push b

/-- `TracingAlloc` of src/alloc.rs:17-23.  The output file is modelled as the
list of (parsed) lines written so far; the `Instant` timestamp as a `Nat`
time.  The `file_access_sync` spin lock only serialises concurrent access and
is a no-op in this sequential model; the `inner: System` allocator is
modelled at the call sites by passing in the pointer it returns. -/
structure TracingAlloc where
  active : Bool
  output_file : Option (List TraceLine)
  timestamp : Option Nat
deriving DecidableEq

/-- `TracingAlloc::new` of src/alloc.rs:28-36. -/
def TracingAlloc.new : TracingAlloc :=
  { active := false, output_file := none, timestamp := none }

/-- `TracingAlloc::write_ev` of src/alloc.rs:98-122: if both an output file
and a timestamp are set, append the line `symbol elapsed size` to the file
(`tNow` is the current time, so `elapsed = tNow - ts`); otherwise do nothing.
The write is not gated on `active`. -/
def TracingAlloc.write_ev (st : TracingAlloc) (ev : Event) (tNow : Nat) : TracingAlloc :=
  match st.output_file, st.timestamp with
  | some lines, some ts =>
    let elapsed := tNow - ts
    let line :=
      match ev with
      | .alloc _ size => TraceLine.alloc elapsed size
      | .free _ size => TraceLine.free elapsed size
      | .start => TraceLine.start elapsed
      | .stop => TraceLine.stop elapsed
    { st with output_file := some (lines ++ [line]) }
  | _, _ => st

/-- The line `write_ev` chooses for an event: its symbol (`A`/`F`/`S`/`E`)
with the elapsed time and the event's size (0 for the markers),
src/alloc.rs:108-114. -/
def evLine (ev : Event) (elapsed : Nat) : TraceLine :=
  match ev with
  | .alloc _ size => TraceLine.alloc elapsed size
  | .free _ size => TraceLine.free elapsed size
  | .start => TraceLine.start elapsed
  | .stop => TraceLine.stop elapsed

/-- `TracingAlloc::enable_tracing` of src/alloc.rs:38-55: store the captured
time `tCapture` as the new timestamp, then write the `Start` event (at time
`tWrite`), then set `active`. -/
def TracingAlloc.enable_tracing (st : TracingAlloc) (tCapture tWrite : Nat) : TracingAlloc :=
  let st1 := { st with timestamp := some tCapture }
  let st2 := st1.write_ev Event.start tWrite
  { st2 with active := true }

/-- `TracingAlloc::disable_tracing` of src/alloc.rs:57-60: write the `End`
event, then clear `active`. -/
def TracingAlloc.disable_tracing (st : TracingAlloc) (tWrite : Nat) : TracingAlloc :=
  let st1 := st.write_ev Event.stop tWrite
  { st1 with active := false }

/-- `TracingAlloc::set_file` of src/alloc.rs:62-78: replace the output file,
returning the old one. -/
def TracingAlloc.set_file (st : TracingAlloc) (file : List TraceLine) :
    Option (List TraceLine) × TracingAlloc :=
  (st.output_file, { st with output_file := some file })

/-- `TracingAlloc::clear_file` of src/alloc.rs:80-96: remove the output file,
returning it. -/
def TracingAlloc.clear_file (st : TracingAlloc) :
    Option (List TraceLine) × TracingAlloc :=
  (st.output_file, { st with output_file := none })

/-- `GlobalAlloc::alloc` for `TracingAlloc`, src/alloc.rs:126-137: obtain the
pointer `res` from the inner system allocator, write an `Alloc` event if
`active`, and return `res` unconditionally. -/
def TracingAlloc.alloc (st : TracingAlloc) (res size tNow : Nat) :
    Nat × TracingAlloc :=
  let st1 := if st.active then st.write_ev (Event.alloc res size) tNow else st
  (res, st1)

/-- `GlobalAlloc::dealloc` for `TracingAlloc`, src/alloc.rs:139-148: write a
`Free` event if `active`, then delegate to the inner deallocation. -/
def TracingAlloc.dealloc (st : TracingAlloc) (ptr size tNow : Nat) : TracingAlloc :=
  if st.active then st.write_ev (Event.free ptr size) tNow else st

/-- The lines recorded in the tracing allocator's output file (empty when no
file is set). -/
def recordedEvents (st : TracingAlloc) : List TraceLine :=
  st.output_file.getD []

/-- The condition under which `write_ev` actually records a line for an
active allocator: an output file and a timestamp are both set. -/
def writeCond (st : TracingAlloc) : Bool :=
  st.active && st.output_file.isSome && st.timestamp.isSome

/-- Modelled from the spec: the `RuntimeReport` of §3, produced by
`reduce_runtime` of the newer `bench` module, missing from src/ (read back by
src/bench/simple.rs and src/bench/detailed.rs).  Durations in nanoseconds. -/
structure RuntimeReport where
  sample_count : Nat
  mean : Nat
  std_dev : Nat
  first_quartile : Nat
  third_quartile : Nat
  outlier_count : Nat
deriving DecidableEq

/-- Modelled from the spec: the `BenchEvent` channel payload of §3 —
`Answer{value, id, is_alternate}`, `Memory{report, id}`, `Timing{report,
id}`, `Error{message, id}`, `Finish{id}`. -/
inductive BenchEvent
  | answer (value : String) (id : Nat) (is_alternate : Bool)
  | memory (report : MemoryReport) (id : Nat)
  | timing (report : RuntimeReport) (id : Nat)
  | error (message : String) (id : Nat)
  | finish (id : Nat)
deriving DecidableEq

/-- Modelled from the spec: the outcome of calling a job's candidate function
once, at the per-job failure boundary of §4.4/§9 — `fail` covers both an
error return and a caught panic (both are converted into an `Error` event by
the worker). -/
inductive JobOutcome
  | ok (answer : String)
  | fail (message : String)
deriving DecidableEq

/-- Modelled from the spec: a `BenchJob` (§3) as seen by the worker — its id,
the outcome of its single correctness-check call, the `run_only` flag, and
the reports its measurement phases would produce. -/
structure BenchJob where
  id : Nat
  outcome : JobOutcome
  run_only : Bool
  mem_report : MemoryReport
  time_report : RuntimeReport
deriving DecidableEq

/-- Modelled from the spec: `bench_worker`, the job protocol of §4.4, missing
from src/ (spawned by src/bench/simple.rs:231 and src/bench/detailed.rs) —
call the candidate once; on failure emit `Error` then `Finish` and stop; on
success emit `Answer`, then unless `run_only` emit `Memory` and `Timing`,
then `Finish`. -/
def bench_worker (j : BenchJob) : List BenchEvent :=
  match j.outcome with
  | .fail msg => [BenchEvent.error msg j.id, BenchEvent.finish j.id]
  | .ok ans =>
    if j.run_only then
      [BenchEvent.answer ans j.id false, BenchEvent.finish j.id]
    else
      [BenchEvent.answer ans j.id false, BenchEvent.memory j.mem_report j.id,
        BenchEvent.timing j.time_report j.id, BenchEvent.finish j.id]

/-- Modelled from the spec: the worker pool of §4.4 runs one `bench_worker`
per job; jobs share no state, so the events each job emits are a function of
that job alone. -/
def bench_pool (jobs : List BenchJob) : List (List BenchEvent) :=
  jobs.map bench_worker

/-- Whether a channel event is an `Error`. -/
def isErrorEv : BenchEvent → Bool
  | .error _ _ => true
  | _ => false

/-- Whether a channel event is a `Finish`. -/
def isFinishEv : BenchEvent → Bool
  | .finish _ => true
  | _ => false

/-- Whether a channel event is a `Memory`. -/
def isMemoryEv : BenchEvent → Bool
  | .memory _ _ => true
  | _ => false

/-- Whether a channel event is a `Timing`. -/
def isTimingEv : BenchEvent → Bool
  | .timing _ _ => true
  | _ => false

/-- The run count of `bench_function`, src/bench.rs:424-427:
`(bench_time / min_run).ceil().max(10.0).min(10e6) as u32`, with the
`f64` arithmetic modelled exactly over `ℚ` (note `10e6 = 10_000_000`). -/
def total_runs (bench_time : Nat) (min_run_secs : ℚ) : Nat :=
  (min (max ⌈(bench_time : ℚ) / min_run_secs⌉ 10) 10000000).toNat

/-- The timed-repetition loop of `bench_function`, src/bench.rs:443-456: one
timed invocation of the candidate per iteration of `for _ in 0..total_runs`;
`elapsed i` is the duration measured for run `i`. -/
def timed_samples (n : Nat) (elapsed : Nat → ℚ) : List ℚ :=
  (List.range n).map elapsed

/-- The search behind `input.splitn(2, delim)` in `split_pair`
(src/parsers.rs:39-50): scan `input` left to right for the first position
where `delim` matches; `acc` holds the characters already passed over, in
reverse.  Returns the text before the first occurrence and the text after
it, or `none` when the delimiter never occurs. -/
def splitFirst (delim : List Char) (acc : List Char) : List Char → Option (List Char × List Char)
  | [] =>
    if List.isPrefixOf delim [] then some (acc.reverse, []) else none
  | c :: rest =>
    if List.isPrefixOf delim (c :: rest) then
      some (acc.reverse, (c :: rest).drop delim.length)
    else
      splitFirst delim (c :: acc) rest

/-- `split_pair` of src/parsers.rs:39-50: split at the first occurrence of
the delimiter, or return `DelimiterError` carrying the delimiter.  The error
payload is modelled as the delimiter itself. -/
def split_pair (input delim : List Char) : Except (List Char) (List Char × List Char) :=
  match splitFirst delim [] input with
  | some p => Except.ok p
  | none => Except.error delim

/-- The `end_ts` update of one replay step, in isolation. -/
def endStep (e : Nat) : TraceLine → Nat
  | .stop ts => ts
  | _ => e

theorem sumBytes_from (trace : List TraceLine) :
    ∀ a : Int, trace.foldl (fun b l => b + lineDelta l) a = a + sumBytes trace := by
  induction trace with
  | nil => intro a; simp only [List.foldl_nil, sumBytes, add_zero]
  | cons l rest ih =>
    intro a
    have h0 : sumBytes (l :: rest) = lineDelta l + sumBytes rest := by
      simp only [sumBytes, List.foldl_cons, zero_add]
      exact ih (lineDelta l)
    simp only [List.foldl_cons]
    rw [ih (a + lineDelta l), h0]
    ring

theorem sumBytes_cons (l : TraceLine) (rest : List TraceLine) :
    sumBytes (l :: rest) = lineDelta l + sumBytes rest := by
  simp only [sumBytes, List.foldl_cons]
  rw [sumBytes_from, sumBytes_from]
  ring

theorem replayStep_points (st : ReplayState) (l : TraceLine) :
    (replayStep st l).points =
      st.points ++ [(lineTs l, st.prev_bytes), (lineTs l, st.cur_bytes + lineDelta l)] := by
  cases l <;> rfl

theorem replayStep_cur (st : ReplayState) (l : TraceLine) :
    (replayStep st l).cur_bytes = st.cur_bytes + lineDelta l := by
  cases l <;> rfl

theorem replayStep_prev (st : ReplayState) (l : TraceLine) :
    (replayStep st l).prev_bytes = st.cur_bytes + lineDelta l := by
  cases l <;> rfl

theorem replayStep_end (st : ReplayState) (l : TraceLine) :
    (replayStep st l).end_ts = endStep st.end_ts l := by
  cases l <;> rfl

theorem replayStep_max (st : ReplayState) (l : TraceLine) :
    (replayStep st l).max_bytes = max st.max_bytes (st.cur_bytes + lineDelta l) := by
  cases l <;> rfl

theorem replay_cur (trace : List TraceLine) :
    ∀ st : ReplayState, (trace.foldl replayStep st).cur_bytes = st.cur_bytes + sumBytes trace := by
  induction trace with
  | nil => intro st; simp [sumBytes]
  | cons l rest ih =>
    intro st
    simp only [List.foldl_cons, ih, replayStep_cur, sumBytes_cons]
    ring

theorem replay_points (trace : List TraceLine) :
    ∀ st : ReplayState, st.prev_bytes = st.cur_bytes →
      (trace.foldl replayStep st).points = st.points ++ specPoints st.cur_bytes trace := by
  induction trace with
  | nil => intro st _; simp [specPoints]
  | cons l rest ih =>
    intro st h
    simp only [List.foldl_cons]
    rw [ih (replayStep st l) (by rw [replayStep_prev, replayStep_cur])]
    rw [replayStep_points, replayStep_cur, h, specPoints]
    simp

theorem replay_end (trace : List TraceLine) :
    ∀ st : ReplayState, (trace.foldl replayStep st).end_ts = trace.foldl endStep st.end_ts := by
  induction trace with
  | nil => intro st; rfl
  | cons l rest ih =>
    intro st
    simp only [List.foldl_cons, ih, replayStep_end]

theorem endStep_fold_spec (trace : List TraceLine) :
    ∀ e : Nat,
      trace.foldl endStep e =
        ((trace.reverse.findSome? fun l =>
          match l with
          | .stop ts => some ts
          | _ => none).getD e) := by
  induction trace with
  | nil => intro e; rfl
  | cons l rest ih =>
    intro e
    simp only [List.foldl_cons, List.reverse_cons, List.findSome?_append, ih]
    cases hfs : rest.reverse.findSome? fun l =>
        match l with
        | TraceLine.stop ts => some ts
        | _ => none with
    | some v => simp [Option.or]
    | none =>
      cases l <;> simp [Option.or, List.findSome?, endStep]

theorem replay_max_mono (trace : List TraceLine) :
    ∀ st : ReplayState, st.max_bytes ≤ (trace.foldl replayStep st).max_bytes := by
  induction trace with
  | nil => intro st; exact le_refl _
  | cons l rest ih =>
    intro st
    refine le_trans ?_ (ih (replayStep st l))
    rw [replayStep_max]
    exact le_max_left _ _

theorem replay_max_ge (trace : List TraceLine) :
    ∀ st : ReplayState, ∀ j : Nat, trace ≠ [] → 1 ≤ j →
      st.cur_bytes + sumBytes (trace.take j) ≤ (trace.foldl replayStep st).max_bytes := by
  induction trace with
  | nil => intro st j h _; exact absurd rfl h
  | cons l rest ih =>
    intro st j _ hj
    obtain ⟨j', rfl⟩ : ∃ j', j = j' + 1 := ⟨j - 1, (Nat.succ_pred_eq_of_pos hj).symm⟩
    simp only [List.take_succ_cons, sumBytes_cons, List.foldl_cons]
    rcases Nat.eq_zero_or_pos j' with hj0 | hj1
    · subst hj0
      simp only [List.take_zero, sumBytes, List.foldl_nil, add_zero]
      refine le_trans ?_ (replay_max_mono rest (replayStep st l))
      rw [replayStep_max]
      exact le_max_right _ _
    · rcases rest with _ | ⟨r, rest'⟩
      · simp only [List.take_nil, sumBytes, List.foldl_nil, add_zero, List.foldl_cons]
        rw [replayStep_max]
        exact le_trans (le_of_eq (by ring)) (le_max_right _ _)
      · have := ih (replayStep st l) j' (by simp) hj1
        rw [replayStep_cur] at this
        exact le_trans (le_of_eq (by ring)) this

theorem specPoints_length (trace : List TraceLine) :
    ∀ cur : Int, (specPoints cur trace).length = 2 * trace.length := by
  induction trace with
  | nil => intro cur; rfl
  | cons l rest ih =>
    intro cur
    simp only [specPoints, List.length_cons, ih]
    ring

theorem specPoints_get (trace : List TraceLine) :
    ∀ cur : Int, ∀ i : Nat, ∀ h : i < trace.length,
      (specPoints cur trace).get? (2 * i) =
        some (lineTs (trace.get ⟨i, h⟩), cur + sumBytes (trace.take i)) ∧
      (specPoints cur trace).get? (2 * i + 1) =
        some (lineTs (trace.get ⟨i, h⟩), cur + sumBytes (trace.take (i + 1))) := by
  induction trace with
  | nil => intro cur i h; exact absurd h (by simp)
  | cons l rest ih =>
    intro cur i h
    cases i with
    | zero =>
      constructor
      · simp [specPoints, sumBytes]
      · simp [specPoints, List.take_succ_cons, sumBytes_cons, sumBytes]
    | succ i' =>
      have h' : i' < rest.length := Nat.lt_of_succ_lt_succ h
      have hrec := ih (cur + lineDelta l) i' h'
      constructor
      · have : 2 * (i' + 1) = (2 * i' + 1) + 1 := by ring
        rw [this]
        simp only [specPoints, List.get?_cons_succ]
        rw [hrec.1]
        simp only [List.get_cons_succ, List.take_succ_cons, sumBytes_cons]
        congr 2
        ring
      · have : 2 * (i' + 1) + 1 = (2 * i' + 1 + 1) + 1 := by ring
        rw [this]
        simp only [specPoints, List.get?_cons_succ]
        rw [hrec.2]
        simp only [List.get_cons_succ, List.take_succ_cons, sumBytes_cons]
        congr 2
        ring

theorem get_data_points_spec (trace : List TraceLine) :
    (get_data trace).graph_points = specPoints 0 trace := by
  simp only [get_data]
  rw [replay_points trace ⟨[], 0, 0, 0, 0⟩ rfl]
  simp

/-- C1: the memory replay `get_data` maintains a signed running byte counter
starting at zero (Alloc adds its size, Free subtracts it, markers add zero);
the last End event's timestamp becomes `end_ts`; two graph points are
emitted per event — `(time, previous bytes)` then `(time, current bytes)` —
and the reported `max_memory` is at least every prefix sum of allocations
minus frees. -/
theorem get_data_replay_correct (trace : List TraceLine) (i : Nat)
    (h : i < trace.length) :
    (get_data trace).graph_points.length = 2 * trace.length ∧
    (get_data trace).end_ts = lastEndTs trace ∧
    (get_data trace).graph_points.get? (2 * i) =
      some (lineTs (trace.get ⟨i, h⟩), sumBytes (trace.take i)) ∧
    (get_data trace).graph_points.get? (2 * i + 1) =
      some (lineTs (trace.get ⟨i, h⟩), sumBytes (trace.take (i + 1))) ∧
    ∀ j : Nat, sumBytes (trace.take j) ≤ ((get_data trace).max_memory : Int) := by
  have hp := get_data_points_spec trace
  refine ⟨?_, ?_, ?_, ?_, ?_⟩
  · rw [hp]; exact specPoints_length trace 0
  · simp only [get_data]
    rw [replay_end]
    simp only [ReplayState.end_ts]
    rw [endStep_fold_spec]
    rfl
  · rw [hp]
    have := (specPoints_get trace 0 i h).1
    simpa using this
  · rw [hp]
    have := (specPoints_get trace 0 i h).2
    simpa using this
  · intro j
    have hmax : sumBytes (trace.take j) ≤
        (trace.foldl replayStep ⟨[], 0, 0, 0, 0⟩).max_bytes := by
      rcases trace with _ | ⟨l, rest⟩
      · simp [sumBytes]
      · rcases Nat.eq_zero_or_pos j with hj0 | hj1
        · subst hj0
          simp only [List.take_zero, sumBytes, List.foldl_nil]
          exact replay_max_mono (l :: rest) ⟨[], 0, 0, 0, 0⟩
        · have := replay_max_ge (l :: rest) ⟨[], 0, 0, 0, 0⟩ j (by simp) hj1
          simpa using this
    refine le_trans hmax ?_
    simp only [get_data]
    exact Int.self_le_toNat _

/-- Witness for C1 at the concrete trace `[A 1 8, F 2 8]` and event index 0. -/
theorem get_data_replay_correct_witness :
    0 < ([TraceLine.alloc 1 8, TraceLine.free 2 8] : List TraceLine).length ∧
    (get_data [TraceLine.alloc 1 8, TraceLine.free 2 8]).graph_points.get? (2 * 0) =
      some (1, 0) := by
  constructor
  · decide
  · have h :=
      (get_data_replay_correct [TraceLine.alloc 1 8, TraceLine.free 2 8] 0 (by decide)).2.2.1
    exact h.trans (by decide)

theorem reduceMemStep_count (st : ReduceMemState) (l : TraceLine) :
    (reduceMemStep st l).alloc_count =
      st.alloc_count + (if isAllocLine l then 1 else 0) := by
  cases l <;> rfl

theorem reduce_memory_fold_count (trace : List TraceLine) :
    ∀ st : ReduceMemState,
      (trace.foldl reduceMemStep st).alloc_count =
        st.alloc_count + trace.countP isAllocLine := by
  induction trace with
  | nil => intro st; simp
  | cons l rest ih =>
    intro st
    simp only [List.foldl_cons, ih, reduceMemStep_count, List.countP_cons]
    cases hb : isAllocLine l
    · simp [hb]
    · simp [hb]
      ring

/-- C2: after replaying any event sequence, `alloc_count` equals the number
of `Alloc` events in it, and it is unchanged by removing every `Free` event
(independence from interleaved frees). -/
theorem reduce_memory_alloc_count (trace : List TraceLine) :
    (reduce_memory trace).alloc_count = trace.countP isAllocLine ∧
    (reduce_memory (trace.filter fun l => !isFreeLine l)).alloc_count =
      (reduce_memory trace).alloc_count := by
  have hc : ∀ t : List TraceLine, (reduce_memory t).alloc_count = t.countP isAllocLine := by
    intro t
    simp only [reduce_memory]
    rw [reduce_memory_fold_count]
    simp
  refine ⟨hc trace, ?_⟩
  rw [hc, hc, List.countP_filter]
  refine List.countP_congr ?_
  intro l _
  cases l <;> simp [isAllocLine, isFreeLine]

theorem Buffer.push_length (b : Buffer) (ev : Event) :
    (b.push ev).length = b.length + 1 := by
  simp only [Buffer.push, Buffer.grow]
  split <;> rfl

theorem Buffer.push_data (b : Buffer) (ev : Event) :
    (b.push ev).data = b.data.take b.length ++ [ev] := by
  simp only [Buffer.push, Buffer.grow]
  split <;> rfl

theorem Buffer.push_wf (b : Buffer) (ev : Event) (h : b.data.length = b.length) :
    (b.push ev).data.length = (b.push ev).length ∧
      (b.push ev).iter = b.iter ++ [ev] := by
  have htake : b.data.take b.length = b.data := by
    rw [← h]; simp
  constructor
  · rw [Buffer.push_data, Buffer.push_length, List.length_append, htake, h]
    rfl
  · simp only [Buffer.iter, Buffer.push_data, Buffer.push_length, htake]
    rw [List.take_of_length_le]
    simp [h]

theorem Buffer.pushAll_wf (evs : List Event) :
    ∀ b : Buffer, b.data.length = b.length →
      (b.pushAll evs).length = b.length + evs.length ∧
      (b.pushAll evs).iter = b.iter ++ evs ∧
      (b.pushAll evs).data.length = (b.pushAll evs).length := by
  induction evs with
  | nil => intro b h; exact ⟨by simp [Buffer.pushAll], by simp [Buffer.pushAll], by simpa [Buffer.pushAll]⟩
  | cons ev rest ih =>
    intro b h
    have hstep := Buffer.push_wf b ev h
    have hrec := ih (b.push ev) hstep.1
    refine ⟨?_, ?_, hrec.2.2⟩
    · rw [show Buffer.pushAll b (ev :: rest) = Buffer.pushAll (b.push ev) rest from rfl]
      rw [hrec.1, Buffer.push_length]
      simp [Nat.add_assoc, Nat.add_comm 1 rest.length]
    · rw [show Buffer.pushAll b (ev :: rest) = Buffer.pushAll (b.push ev) rest from rfl]
      rw [hrec.2.1, hstep.2]
      simp

/-- C4: K appends on a fresh event-log buffer — for any K, including K above
the initial capacity — leave `length = K`, and `iter` returns exactly the K
appended events in insertion order. -/
theorem buffer_pushAll_correct (evs : List Event) :
    (Buffer.new.pushAll evs).length = evs.length ∧
    (Buffer.new.pushAll evs).iter = evs := by
  have h := Buffer.pushAll_wf evs Buffer.new rfl
  refine ⟨?_, ?_⟩
  · rw [h.1]; simp [Buffer.new]
  · rw [h.2.1]; simp [Buffer.new, Buffer.iter]

/-- C5: the event-log operations preserve `length ≤ capacity` (together with
capacity positivity); capacity never shrinks and changes only by doubling,
exactly when an append finds `length = capacity`; `clear` resets `length` to
0 and keeps the capacity. -/
theorem buffer_capacity_invariants (b : Buffer) (ev : Event)
    (hlen : b.length ≤ b.capacity) (hpos : 0 < b.capacity) :
    (Buffer.new.length ≤ Buffer.new.capacity ∧ 0 < Buffer.new.capacity) ∧
    ((b.push ev).length ≤ (b.push ev).capacity ∧ 0 < (b.push ev).capacity) ∧
    b.capacity ≤ (b.push ev).capacity ∧
    ((b.length < b.capacity ∧ (b.push ev).capacity = b.capacity) ∨
      (b.length = b.capacity ∧ (b.push ev).capacity = b.capacity * 2)) ∧
    b.clear.length = 0 ∧ b.clear.capacity = b.capacity ∧
    b.clear.length ≤ b.clear.capacity ∧ 0 < b.clear.capacity := by
  have hcap : (b.push ev).capacity = if b.length = b.capacity then b.capacity * 2 else b.capacity := by
    simp only [Buffer.push, Buffer.grow]
    split <;> rfl
  by_cases hc : b.length = b.capacity
  · have hcap2 : (b.push ev).capacity = b.capacity * 2 := by rw [hcap, if_pos hc]
    refine ⟨⟨by decide, by decide⟩, ⟨?_, ?_⟩, ?_, Or.inr ⟨hc, hcap2⟩, rfl, rfl, ?_, hpos⟩
    · rw [Buffer.push_length, hcap2]; omega
    · rw [hcap2]; omega
    · rw [hcap2]; omega
    · exact Nat.zero_le _
  · have hcap2 : (b.push ev).capacity = b.capacity := by rw [hcap, if_neg hc]
    have hlt : b.length < b.capacity := lt_of_le_of_ne hlen hc
    refine ⟨⟨by decide, by decide⟩, ⟨?_, ?_⟩, ?_, Or.inl ⟨hlt, hcap2⟩, rfl, rfl, ?_, hpos⟩
    · rw [Buffer.push_length, hcap2]; omega
    · rw [hcap2]; exact hpos
    · rw [hcap2]
    · exact Nat.zero_le _

/-- Witness for C5 at the fresh buffer and a `Start` event. -/
theorem buffer_capacity_invariants_witness :
    Buffer.new.length ≤ Buffer.new.capacity ∧ 0 < Buffer.new.capacity ∧
    (Buffer.new.push Event.start).length ≤ (Buffer.new.push Event.start).capacity :=
  ⟨by decide, by decide,
    ((buffer_capacity_invariants Buffer.new Event.start (by decide) (by decide)).2.1).1⟩

theorem write_ev_some (active : Bool) (l : List TraceLine) (ts : Nat) (ev : Event) (t : Nat) :
    TracingAlloc.write_ev ⟨active, some l, some ts⟩ ev t =
      ⟨active, some (l ++ [evLine ev (t - ts)]), some ts⟩ := by
  cases ev <;> rfl

theorem write_ev_no_file (active : Bool) (ts : Option Nat) (ev : Event) (t : Nat) :
    TracingAlloc.write_ev ⟨active, none, ts⟩ ev t = ⟨active, none, ts⟩ := by
  cases ts <;> rfl

theorem write_ev_no_ts (active : Bool) (l : List TraceLine) (ev : Event) (t : Nat) :
    TracingAlloc.write_ev ⟨active, some l, none⟩ ev t = ⟨active, some l, none⟩ := rfl

theorem write_ev_active (st : TracingAlloc) (ev : Event) (t : Nat) :
    (st.write_ev ev t).active = st.active := by
  obtain ⟨a, f, ts⟩ := st
  cases f with
  | none => rw [write_ev_no_file]
  | some l =>
    cases ts with
    | none => rw [write_ev_no_ts]
    | some v => rw [write_ev_some]

theorem write_ev_timestamp (st : TracingAlloc) (ev : Event) (t : Nat) :
    (st.write_ev ev t).timestamp = st.timestamp := by
  obtain ⟨a, f, ts⟩ := st
  cases f with
  | none => rw [write_ev_no_file]
  | some l =>
    cases ts with
    | none => rw [write_ev_no_ts]
    | some v => rw [write_ev_some]

theorem write_ev_file_isSome (st : TracingAlloc) (ev : Event) (t : Nat) :
    (st.write_ev ev t).output_file.isSome = st.output_file.isSome := by
  obtain ⟨a, f, ts⟩ := st
  cases f with
  | none => rw [write_ev_no_file]
  | some l =>
    cases ts with
    | none => rw [write_ev_no_ts]
    | some v => rw [write_ev_some]; rfl

theorem write_ev_recorded_length (st : TracingAlloc) (ev : Event) (t : Nat) :
    (recordedEvents (st.write_ev ev t)).length =
      (recordedEvents st).length +
        (if st.output_file.isSome && st.timestamp.isSome then 1 else 0) := by
  obtain ⟨a, f, ts⟩ := st
  cases f with
  | none => rw [write_ev_no_file]; simp [recordedEvents]
  | some l =>
    cases ts with
    | none => rw [write_ev_no_ts]; simp [recordedEvents]
    | some v => rw [write_ev_some]; simp [recordedEvents]

/-- C6 (amended): `allocate`/`deallocate` are self-loops of the tracing state
machine — they never change `active` (nor the timestamp or the presence of
the output file) and they return exactly the inner allocator's pointer; they
record one event exactly when the state is active AND an output file and a
reference timestamp are set; in particular after `disable_tracing` an
allocation records nothing and leaves the state untouched. -/
theorem alloc_dealloc_selfloop (st : TracingAlloc) (res size ptr t td : Nat) :
    (st.alloc res size t).1 = res ∧
    (st.alloc res size t).2.active = st.active ∧
    (st.alloc res size t).2.timestamp = st.timestamp ∧
    (st.alloc res size t).2.output_file.isSome = st.output_file.isSome ∧
    (st.dealloc ptr size t).active = st.active ∧
    (st.dealloc ptr size t).timestamp = st.timestamp ∧
    (st.dealloc ptr size t).output_file.isSome = st.output_file.isSome ∧
    (recordedEvents (st.alloc res size t).2).length =
      (recordedEvents st).length + (if writeCond st then 1 else 0) ∧
    (recordedEvents (st.dealloc ptr size t)).length =
      (recordedEvents st).length + (if writeCond st then 1 else 0) ∧
    (writeCond st = false → (st.alloc res size t).2 = st ∧ st.dealloc ptr size t = st) ∧
    ((st.disable_tracing td).alloc res size t).2 = st.disable_tracing td ∧
    (st.disable_tracing td).dealloc ptr size t = st.disable_tracing td := by
  have key : ∀ (s : TracingAlloc) (ev : Event) (time : Nat),
      (if s.active then s.write_ev ev time else s).active = s.active ∧
      (if s.active then s.write_ev ev time else s).timestamp = s.timestamp ∧
      (if s.active then s.write_ev ev time else s).output_file.isSome =
        s.output_file.isSome ∧
      (recordedEvents (if s.active then s.write_ev ev time else s)).length =
        (recordedEvents s).length + (if writeCond s then 1 else 0) ∧
      (writeCond s = false → (if s.active then s.write_ev ev time else s) = s) := by
    intro s ev time
    by_cases ha : s.active
    · have hif : (if s.active then s.write_ev ev time else s) = s.write_ev ev time :=
        if_pos ha
      rw [hif]
      refine ⟨write_ev_active s ev time, write_ev_timestamp s ev time,
        write_ev_file_isSome s ev time, ?_, ?_⟩
      · rw [write_ev_recorded_length]
        simp [writeCond, ha]
      · intro hw
        simp only [writeCond, ha, Bool.true_and] at hw
        obtain ⟨a, f, ts⟩ := s
        cases f with
        | none => exact write_ev_no_file a ts ev time
        | some l =>
          cases ts with
          | none => exact write_ev_no_ts a l ev time
          | some v => simp at hw
    · have ha' : s.active = false := by simpa using ha
      have hif : (if s.active then s.write_ev ev time else s) = s :=
        if_neg (by simp [ha'])
      rw [hif]
      refine ⟨rfl, rfl, rfl, ?_, fun _ => rfl⟩
      simp [writeCond, ha']
  have hA := key st (Event.alloc res size) t
  have hF := key st (Event.free ptr size) t
  have hdis_active : (st.disable_tracing td).active = false := rfl
  have hdis_alloc : ((st.disable_tracing td).alloc res size t).2 = st.disable_tracing td := by
    simp [TracingAlloc.alloc, hdis_active]
  have hdis_dealloc : (st.disable_tracing td).dealloc ptr size t = st.disable_tracing td := by
    simp [TracingAlloc.dealloc, hdis_active]
  exact ⟨rfl, hA.1, hA.2.1, hA.2.2.1, hF.1, hF.2.1, hF.2.2.1, hA.2.2.2.1, hF.2.2.2.1,
    fun hw => ⟨hA.2.2.2.2 hw, hF.2.2.2.2 hw⟩, hdis_alloc, hdis_dealloc⟩

/-- Witness for C6 (amended) at an active, fully set-up allocator. -/
theorem alloc_dealloc_selfloop_witness :
    ((⟨true, some [], some 0⟩ : TracingAlloc).alloc 100 4 1).1 = 100 ∧
    (recordedEvents ((⟨true, some [], some 0⟩ : TracingAlloc).alloc 100 4 1).2).length = 1 := by
  have h := alloc_dealloc_selfloop ⟨true, some [], some 0⟩ 100 4 7 1 2
  refine ⟨h.1, ?_⟩
  have h2 := h.2.2.2.2.2.2.2.1
  exact h2.trans (by decide)

/-- Counterexample to C6 as stated: with tracing active but no output file
set, an allocation records no event at all (the state is literally
unchanged), so "records an event iff the tracing state is active" fails in
the `active → records` direction. -/
theorem alloc_records_iff_active_cex :
    (⟨true, none, some 0⟩ : TracingAlloc).active = true ∧
    (TracingAlloc.alloc ⟨true, none, some 0⟩ 100 4 1).2 = ⟨true, none, some 0⟩ ∧
    recordedEvents (TracingAlloc.alloc ⟨true, none, some 0⟩ 100 4 1).2 = [] := by
  decide

/-- C7: `enable_tracing` stores the freshly captured time as the reference
timestamp, appends a `Start` line whose elapsed time is measured against
that new timestamp (so the capture happens before the append), appends it
regardless of the current flag value (the `Start` event is never gated), and
only then is the flag true; `disable_tracing` appends the `End` line and
ends with the flag false. -/
theorem enable_disable_event_order (st st2 : TracingAlloc) (l l2 : List TraceLine)
    (tc tw t2 td : Nat) (hf : st.output_file = some l)
    (hf2 : st2.output_file = some l2) (ht2 : st2.timestamp = some t2) :
    (st.enable_tracing tc tw).timestamp = some tc ∧
    (st.enable_tracing tc tw).active = true ∧
    (st.enable_tracing tc tw).output_file = some (l ++ [TraceLine.start (tw - tc)]) ∧
    (st2.disable_tracing td).active = false ∧
    (st2.disable_tracing td).output_file = some (l2 ++ [TraceLine.stop (td - t2)]) := by
  obtain ⟨a, f, ts⟩ := st
  obtain ⟨a2, f2, ts2⟩ := st2
  simp only at hf hf2 ht2
  subst hf hf2 ht2
  exact ⟨rfl, rfl, rfl, rfl, rfl⟩

/-- Witness for C7 at a concrete inactive allocator with an empty file
(enable at capture time 5, write time 7) and a concrete active one
(disable at time 9 with reference timestamp 2). -/
theorem enable_disable_event_order_witness :
    ((⟨false, some [], none⟩ : TracingAlloc).enable_tracing 5 7).timestamp = some 5 ∧
    ((⟨false, some [], none⟩ : TracingAlloc).enable_tracing 5 7).active = true ∧
    ((⟨false, some [], none⟩ : TracingAlloc).enable_tracing 5 7).output_file =
      some [TraceLine.start 2] ∧
    ((⟨true, some [], some 2⟩ : TracingAlloc).disable_tracing 9).active = false ∧
    ((⟨true, some [], some 2⟩ : TracingAlloc).disable_tracing 9).output_file =
      some [TraceLine.stop 7] := by
  have h := enable_disable_event_order ⟨false, some [], none⟩ ⟨true, some [], some 2⟩
    [] [] 5 7 2 9 rfl rfl rfl
  exact ⟨h.1, h.2.1, h.2.2.1.trans (by decide), h.2.2.2.1, h.2.2.2.2.trans (by decide)⟩

/-- C9: with no output file set, `enable_tracing`/`disable_tracing` and
`allocate`/`deallocate` (even when active) record no events anywhere — the
event write is silently skipped, only the flag/timestamp fields change — and
`allocate` still returns exactly the inner allocator's pointer while
`deallocate` leaves the state untouched before delegating. -/
theorem no_file_records_nothing (st : TracingAlloc) (h : st.output_file = none)
    (tc tw td res size ptr t : Nat) :
    st.enable_tracing tc tw = { st with timestamp := some tc, active := true } ∧
    st.disable_tracing td = { st with active := false } ∧
    st.alloc res size t = (res, st) ∧
    st.dealloc ptr size t = st ∧
    (TracingAlloc.clear_file st).2.output_file = none := by
  obtain ⟨a, f, ts⟩ := st
  simp only at h
  subst h
  refine ⟨?_, ?_, ?_, ?_, rfl⟩
  · cases ts <;> rfl
  · cases ts <;> rfl
  · cases a <;> cases ts <;> rfl
  · cases a <;> cases ts <;> rfl

/-- Witness for C9 at an active allocator with a timestamp but no file. -/
theorem no_file_records_nothing_witness :
    (⟨true, none, some 3⟩ : TracingAlloc).alloc 42 16 9 = (42, ⟨true, none, some 3⟩) :=
  (no_file_records_nothing ⟨true, none, some 3⟩ rfl 1 2 3 42 16 5 9).2.2.1

/-- C8 (spec-modelled): a job whose candidate fails emits exactly one
`Error` followed by exactly one `Finish` — nothing else, in particular no
`Memory` or `Timing` — and, because the pool output is per-job (`map` of the
worker over the jobs, no shared state), every other job's event sequence is
untouched by the failure and every job still emits its single `Finish`. -/
theorem failed_job_events (jobs : List BenchJob) (k : Nat) (hk : k < jobs.length)
    (msg : String) (hfail : (jobs.get ⟨k, hk⟩).outcome = JobOutcome.fail msg) :
    bench_worker (jobs.get ⟨k, hk⟩) =
      [BenchEvent.error msg (jobs.get ⟨k, hk⟩).id,
        BenchEvent.finish (jobs.get ⟨k, hk⟩).id] ∧
    (bench_worker (jobs.get ⟨k, hk⟩)).countP isErrorEv = 1 ∧
    (bench_worker (jobs.get ⟨k, hk⟩)).countP isFinishEv = 1 ∧
    (bench_worker (jobs.get ⟨k, hk⟩)).countP isMemoryEv = 0 ∧
    (bench_worker (jobs.get ⟨k, hk⟩)).countP isTimingEv = 0 ∧
    (∀ m : Nat, (bench_pool jobs)[m]? = (jobs[m]?).map bench_worker) ∧
    (∀ j : BenchJob, (bench_worker j).countP isFinishEv = 1) := by
  have hw : bench_worker (jobs.get ⟨k, hk⟩) =
      [BenchEvent.error msg (jobs.get ⟨k, hk⟩).id,
        BenchEvent.finish (jobs.get ⟨k, hk⟩).id] := by
    have hfail' : jobs[k].outcome = JobOutcome.fail msg := by simpa using hfail
    simp [bench_worker, hfail']
  refine ⟨hw, ?_, ?_, ?_, ?_, ?_, ?_⟩
  · rw [hw]; simp [List.countP_cons, isErrorEv, isFinishEv]
  · rw [hw]; simp [List.countP_cons, isErrorEv, isFinishEv]
  · rw [hw]; simp [List.countP_cons, isMemoryEv]
  · rw [hw]; simp [List.countP_cons, isTimingEv]
  · intro m
    simp [bench_pool]
  · intro j
    cases ho : j.outcome with
    | fail m => simp [bench_worker, ho, List.countP_cons, isFinishEv]
    | ok a =>
      by_cases hr : j.run_only <;>
        simp [bench_worker, ho, hr, List.countP_cons, isFinishEv]

/-- Witness for C8 at a two-job pool whose first job fails with "boom". -/
theorem failed_job_events_witness :
    bench_worker
      (([⟨0, JobOutcome.fail "boom", false, ⟨0, [], 0, 0⟩, ⟨0, 0, 0, 0, 0, 0⟩⟩,
          ⟨1, JobOutcome.ok "42", false, ⟨0, [], 0, 0⟩, ⟨0, 0, 0, 0, 0, 0⟩⟩] :
        List BenchJob).get ⟨0, by decide⟩) =
      [BenchEvent.error "boom" 0, BenchEvent.finish 0] := by
  have h := failed_job_events
    [⟨0, JobOutcome.fail "boom", false, ⟨0, [], 0, 0⟩, ⟨0, 0, 0, 0, 0, 0⟩⟩,
      ⟨1, JobOutcome.ok "42", false, ⟨0, [], 0, 0⟩, ⟨0, 0, 0, 0, 0, 0⟩⟩]
    0 (by decide) "boom" rfl
  exact h.1

/-- C3 (amended): the timed-repetition phase runs the candidate exactly
`total_runs` times, and `total_runs` is clamped to at least 10 and at most
10,000,000 (`10e6` in the source). -/
theorem total_runs_bounds (bench_time : Nat) (min_run_secs : ℚ) (elapsed : Nat → ℚ)
    (h : 0 < min_run_secs) :
    10 ≤ total_runs bench_time min_run_secs ∧
    total_runs bench_time min_run_secs ≤ 10000000 ∧
    (timed_samples (total_runs bench_time min_run_secs) elapsed).length =
      total_runs bench_time min_run_secs := by
  have _hpos := h
  have h10 : (10 : Int) ≤ min (max ⌈(bench_time : ℚ) / min_run_secs⌉ 10) 10000000 :=
    le_min (le_max_right _ _) (by norm_num)
  have hcap : min (max ⌈(bench_time : ℚ) / min_run_secs⌉ 10) 10000000 ≤ 10000000 :=
    min_le_right _ _
  refine ⟨?_, ?_, by simp [timed_samples]⟩
  · simp only [total_runs]
    omega
  · simp only [total_runs]
    omega

/-- Witness for C3 (amended) at a 3-second budget and a 1-second estimate. -/
theorem total_runs_bounds_witness :
    (0 : ℚ) < 1 ∧ 10 ≤ total_runs 3 1 :=
  ⟨by norm_num, (total_runs_bounds 3 1 (fun _ => 0) (by norm_num)).1⟩

/-- Counterexample to C3 as stated: with a 2,000,000-second budget and a
1-second-per-run estimate the clamp yields 2,000,000 timed runs, exceeding
the claimed 1,000,000 cap (the source's cap `10e6` is 10,000,000). -/
theorem total_runs_cap_cex :
    total_runs 2000000 1 = 2000000 ∧ 1000000 < 2000000 := by
  constructor
  · simp only [total_runs]
    norm_num
    rfl
  · norm_num

theorem isPrefixOf_nil_false (delim : List Char) (hd : delim ≠ []) :
    List.isPrefixOf delim ([] : List Char) = false := by
  cases delim with
  | nil => exact absurd rfl hd
  | cons d ds => rfl

theorem isPrefixOf_iff (d l : List Char) : List.isPrefixOf d l = true ↔ d <+: l :=
  List.isPrefixOf_iff_prefix

theorem infixOfCons (d : List Char) (c : Char) (rest : List Char) :
    d <:+: c :: rest ↔ d <+: c :: rest ∨ d <:+: rest :=
  List.infix_cons_iff

theorem splitFirst_some_spec (delim : List Char) (hd : delim ≠ []) :
    ∀ (input acc l r : List Char), splitFirst delim acc input = some (l, r) →
      ∃ mid, l = acc.reverse ++ mid ∧ input = mid ++ (delim ++ r) ∧
        ∀ i, i < mid.length → ¬ delim <+: input.drop i := by
  intro input
  induction input with
  | nil =>
    intro acc l r h
    unfold splitFirst at h
    rw [isPrefixOf_nil_false delim hd] at h
    simp at h
  | cons c rest ih =>
    intro acc l r h
    unfold splitFirst at h
    by_cases hp : List.isPrefixOf delim (c :: rest) = true
    · rw [if_pos hp] at h
      obtain ⟨hl, hr⟩ : acc.reverse = l ∧ (c :: rest).drop delim.length = r := by
        simpa using h
      obtain ⟨t, ht⟩ := (isPrefixOf_iff delim (c :: rest)).mp hp
      refine ⟨[], by simp [hl], ?_, by simp⟩
      have hdrop : (c :: rest).drop delim.length = t := by
        rw [← ht]; exact List.drop_left delim t
      rw [← hr, hdrop, List.nil_append, ht]
    · rw [if_neg hp] at h
      obtain ⟨mid, hmid, hrest, hnom⟩ := ih (c :: acc) l r h
      refine ⟨c :: mid, ?_, by simp [hrest], ?_⟩
      · rw [hmid]
        simp
      · intro i hi
        cases i with
        | zero =>
          simp only [List.drop_zero]
          intro hpre
          exact hp ((isPrefixOf_iff delim ((c :: rest).drop 0)).mpr hpre)
        | succ i' =>
          have hi' : i' < mid.length := by simpa using hi
          simpa using hnom i' hi'

theorem splitFirst_none_spec (delim : List Char) (hd : delim ≠ []) :
    ∀ (input acc : List Char), (splitFirst delim acc input = none ↔ ¬ delim <:+: input) := by
  intro input
  induction input with
  | nil =>
    intro acc
    unfold splitFirst
    rw [isPrefixOf_nil_false delim hd]
    simp [hd]
  | cons c rest ih =>
    intro acc
    unfold splitFirst
    by_cases hp : List.isPrefixOf delim (c :: rest) = true
    · rw [if_pos hp]
      have hinf : delim <:+: c :: rest := by
        obtain ⟨t, ht⟩ := (isPrefixOf_iff delim (c :: rest)).mp hp
        exact ⟨[], t, by simp [ht]⟩
      simp [hinf]
    · rw [if_neg hp]
      rw [ih (c :: acc)]
      have hnp : ¬ delim <+: c :: rest := fun hpre =>
        hp ((isPrefixOf_iff delim (c :: rest)).mpr hpre)
      rw [infixOfCons]
      tauto

/-- C10: for a non-empty delimiter, `split_pair` splits the input at the
first occurrence of the delimiter — on success the input is exactly
`left ++ delim ++ right` and the delimiter matches at no position inside
`left` — and it returns the `DelimiterError` carrying that delimiter exactly
when the delimiter does not occur in the input; no other outcome exists. -/
theorem split_pair_correct (input delim : List Char) (hd : delim ≠ []) :
    (∀ l r, split_pair input delim = Except.ok (l, r) →
        input = l ++ delim ++ r ∧ ∀ i, i < l.length → ¬ delim <+: input.drop i) ∧
    (split_pair input delim = Except.error delim ↔ ¬ delim <:+: input) ∧
    ((∃ l r, split_pair input delim = Except.ok (l, r)) ∨
      split_pair input delim = Except.error delim) := by
  cases hsf : splitFirst delim [] input with
  | none =>
    have hni := (splitFirst_none_spec delim hd input []).mp hsf
    refine ⟨?_, ?_, Or.inr (by simp [split_pair, hsf])⟩
    · intro l r hok
      simp [split_pair, hsf] at hok
    · simp [split_pair, hsf, hni]
  | some p =>
    obtain ⟨l₀, r₀⟩ := p
    obtain ⟨mid, hmid, hinput, hnom⟩ := splitFirst_some_spec delim hd input [] l₀ r₀ hsf
    have hl₀ : l₀ = mid := by simpa using hmid
    subst hl₀
    refine ⟨?_, ?_, Or.inl ⟨l₀, r₀, by simp [split_pair, hsf]⟩⟩
    · intro l r hok
      have hlr : l₀ = l ∧ r₀ = r := by simpa [split_pair, hsf] using hok
      obtain ⟨rfl, rfl⟩ := hlr
      exact ⟨by rw [hinput]; simp [List.append_assoc], hnom⟩
    · have hinf : delim <:+: input := by
        rw [hinput]
        exact ⟨l₀, r₀, by simp⟩
      simp only [split_pair, hsf]
      exact iff_of_false (by simp) (by simp [hinf])

/-- Witness for C10 at input `"a=b"` and delimiter `"="`. -/
theorem split_pair_correct_witness :
    (['='] : List Char) ≠ [] ∧
    (split_pair ['a', '=', 'b'] ['='] = Except.error ['='] ↔
      ¬ (['='] : List Char) <:+: ['a', '=', 'b']) :=
  ⟨by decide, (split_pair_correct ['a', '=', 'b'] ['='] (by decide)).2.1⟩
